import Mathlib

/-!
Verification of the S-curve plotting pipeline (`plots.py`).

The Python class `plots` walks a hierarchical ROOT file, fits error
functions to S-curve histograms, accumulates the fitted parameters in
three parallel lists (`_histos`, `_shifts`, `_widths`), derives plot
bounds from them, assigns palette colors, and saves PDFs.

The embedding below mirrors the structure of the source:
  * `pyStartswith`      — Python `str.startswith` on character sequences;
  * `PlotsState`        — the accumulator fields `_histos`, `_shifts`, `_widths`;
  * `drawLoop`          — the key loop of `_drawScurves` (break on cap,
                          prefix filter, fit, try/except on parameter
                          extraction, appends, per-series saves);
  * `drawScurves`, `getScurvePerCbc` — the drivers;
  * `getXmin`, `getXmax`             — plot bounds (`min`/`max` of Python
                          list comprehensions over `zip(shifts, widths)`);
  * `drawAllErrf` (and the `_fit`, `_fit_meas` variants) — the aggregate
                          renders, recording whether bounds were computed
                          and whether a Python `ValueError` would occur;
  * `getColor`, `niceColors`, `fullColors` — `_getColor` and its palettes;
  * `save`, `FsState`   — `_save` and its working-directory handling;
  * `RKey`, `walkNode`  — `_getKeys` over a hierarchical store.

External effects (ROOT fitting, canvas drawing, the filesystem) are
modelled by oracles and explicit state: the fit outcome for a key is an
`Option (ℚ × ℚ)` (`none` models the `TypeError` raised when the fitted
function did not attach), and IEEE doubles are modelled by rationals,
which is faithful for the ordering/min/max facts proved here.
-/

/-- Python `s.startswith(pre)`: `pre` is a prefix of the character
sequence of `s`.  (Lean's own `String.startsWith` is byte-position based
and does not reduce in the kernel; this is the same function on the
character level.) -/
def pyStartswith (s pre : String) : Bool :=
  pre.data.isPrefixOf s.data

/-- The accumulator fields set up in `plots.__init__`:
`self._histos = []`, `self._shifts = []`, `self._widths = []`.
A histogram is identified by the key it was retrieved with. -/
structure PlotsState where
  histos : List String
  shifts : List ℚ
  widths : List ℚ
deriving Repr, DecidableEq

/-- The empty accumulator, as built by `__init__`. -/
def plotsInit : PlotsState := ⟨[], [], []⟩

/-- The filter pattern of `_drawScurves`:
`'{}/Scurve_Be0_Fe0_Cbc{}'.format(dirname, cbc)` with `dirname = 'Final0'`. -/
def scurvePat (dirname : String) (cbc : Nat) : String :=
  dirname ++ "/Scurve_Be0_Fe0_Cbc" ++ toString cbc

/-- Observable per-iteration events of the `_drawScurves` loop:
keys whose loop body was entered (`visited`), the `(idx, nice)` argument
pairs of the three `_getColor` calls per fitted series (`colorCalls`),
and the names passed to `_save` for individual series (`saved`). -/
structure Trace where
  visited : List String
  colorCalls : List (Nat × Bool)
  saved : List String
deriving Repr, DecidableEq

/-- The key loop of `_drawScurves` (lines 73–123 of `plots.py`):

  * `channels > 0 and count >= channels` → `break`;
  * key not starting with the `Cbc` pattern → `continue`;
  * fit, then `GetParameter(0)` inside `try`: a `TypeError`
    (`fit kname = none`) → `continue`;
  * otherwise three `_getColor(count, channels>0 and channels<19)` calls,
    appends to `_shifts`, `_widths`, `_histos`, two `_save`s, `count += 1`.

`fit` is the oracle for `ROOT`'s fit: `some (shift, width)` when the
fitted function attached, `none` when parameter extraction raises
`TypeError`. -/
def drawLoop (fit : String → Option (ℚ × ℚ)) (cbc : Nat) (channels : Int) :
    List String → Nat → PlotsState → PlotsState × Trace
  | [], _, st => (st, ⟨[], [], []⟩)
  | kname :: rest, count, st =>
    if channels > 0 ∧ (count : Int) ≥ channels then
      (st, ⟨[], [], []⟩)
    else if ¬ pyStartswith kname (scurvePat "Final0" cbc) then
      let r := drawLoop fit cbc channels rest count st
      (r.1, { r.2 with visited := kname :: r.2.visited })
    else
      match fit kname with
      | none =>
        let r := drawLoop fit cbc channels rest count st
        (r.1, { r.2 with visited := kname :: r.2.visited })
      | some (sh, w) =>
        let nice := decide (channels > 0 ∧ channels < 19)
        let st1 : PlotsState :=
          { histos := st.histos ++ [kname]
            shifts := st.shifts ++ [sh]
            widths := st.widths ++ [w] }
        let r := drawLoop fit cbc channels rest (count + 1) st1
        (r.1,
          { visited := kname :: r.2.visited
            colorCalls :=
              (count, nice) :: (count, nice) :: (count, nice) :: r.2.colorCalls
            saved := (kname ++ "_fit") :: (kname ++ "_smooth") :: r.2.saved })

/-- A key both matches the `Cbc` pattern and fits successfully: exactly
the keys the loop appends to the accumulator. -/
def goodKey (fit : String → Option (ℚ × ℚ)) (cbc : Nat) (k : String) : Bool :=
  pyStartswith k (scurvePat "Final0" cbc) && (fit k).isSome

/-- The keys `_drawScurves` appends for a given cap: all matching
successfully-fitted keys, truncated to `channels` when `channels > 0`. -/
def selKeys (fit : String → Option (ℚ × ℚ)) (cbc : Nat) (channels : Int)
    (keys : List String) : List String :=
  if channels > 0 then (keys.filter (goodKey fit cbc)).take channels.toNat
  else keys.filter (goodKey fit cbc)

/-- Plot lower bound `_getXmin`: `min([shift-5*width for shift, width in
zip(self._shifts, self._widths)])`.  `none` models the `ValueError`
Python's `min` raises on an empty sequence. -/
def getXmin (st : PlotsState) : Option ℚ :=
  ((st.shifts.zip st.widths).map (fun sw => sw.1 - 5 * sw.2)).min?

/-- Plot upper bound `_getXmax`: `max([shift+5*width for ...])`. -/
def getXmax (st : PlotsState) : Option ℚ :=
  ((st.shifts.zip st.widths).map (fun sw => sw.1 + 5 * sw.2)).max?

/-- `_draw_all_errf`: iterates over `self._histos`; on the first
iteration (`idx == 0`) it sets the plot range to
`(_getXmin(), _getXmax())`.  With no histograms the loop body never runs
and no bounds are computed (`ok none`); with histograms but empty
parameter lists, Python's `min([])` would raise (`error`). -/
def drawAllErrf (st : PlotsState) : Except String (Option (ℚ × ℚ)) :=
  if st.histos = [] then .ok none
  else
    match getXmin st, getXmax st with
    | some a, some b => .ok (some (a, b))
    | _, _ => .error "ValueError: min() arg is an empty sequence"

/-- `_draw_all_errf_fit`: same loop shape over `self._histos`, setting
the fitted function's range to `(_getXmin(), _getXmax())` on `idx == 0`. -/
def drawAllErrfFit (st : PlotsState) : Except String (Option (ℚ × ℚ)) :=
  if st.histos = [] then .ok none
  else
    match getXmin st, getXmax st with
    | some a, some b => .ok (some (a, b))
    | _, _ => .error "ValueError: min() arg is an empty sequence"

/-- `_draw_all_errf_fit_meas`: same loop shape over `self._histos`. -/
def drawAllErrfFitMeas (st : PlotsState) : Except String (Option (ℚ × ℚ)) :=
  if st.histos = [] then .ok none
  else
    match getXmin st, getXmax st with
    | some a, some b => .ok (some (a, b))
    | _, _ => .error "ValueError: min() arg is an empty sequence"

/-- `_drawScurves`: the key loop followed by the three aggregate renders
(which read the accumulator but do not change it).  `keys` is the
sequence produced by `_getKeys('Final0')`. -/
def drawScurves (fit : String → Option (ℚ × ℚ)) (cbc : Nat) (channels : Int)
    (keys : List String) (st : PlotsState) : Except String (PlotsState × Trace) := do
  let r := drawLoop fit cbc channels keys 0 st
  let _ ← drawAllErrf r.1
  let _ ← drawAllErrfFit r.1
  let _ ← drawAllErrfFitMeas r.1
  .ok r

/-- `getScurvePerCbc`: `for cbc in cbcs: self._drawScurves(cbc, channels)`.
The accumulator state is threaded through the groups, exactly as the
object fields are in the source. -/
def getScurvePerCbc (fit : String → Option (ℚ × ℚ)) (keys : List String)
    (cbcs : List Nat) (channels : Int) (st : PlotsState) :
    Except String PlotsState :=
  match cbcs with
  | [] => .ok st
  | c :: cs => do
    let r ← drawScurves fit c channels keys st
    getScurvePerCbc fit keys cs channels r.1

/-- The `nice=True` palette of `_getColor`: `range(2, 10)`. -/
def niceColors : List Nat := List.range' 2 8

/-- The `nice=False` palette of `_getColor`: the concatenation of
`range(394,405)`, `range(406,421)`, `range(422,437)`, `range(590,605)`,
`range(606,621)`, `range(622,637)`, `range(791,911)`. -/
def fullColors : List Nat :=
  List.range' 394 11 ++ List.range' 406 15 ++ List.range' 422 15 ++
  List.range' 590 15 ++ List.range' 606 15 ++ List.range' 622 15 ++
  List.range' 791 120

/-- `_getColor(idx, nice)`: `colors[idx % len(colors)]` over the palette
selected by `nice`. -/
def getColor (idx : Nat) (nice : Bool) : Nat :=
  let colors := if nice then niceColors else fullColors
  colors.getD (idx % colors.length) 0

/-- Filesystem/process state visible to `_save`: the current working
directory, the set of existing directories, the saved PDF names (in the
directory current at save time), and the count of `Cannot set Y-Axis to
log` warnings. -/
structure FsState where
  cwd : String
  dirs : List String
  saved : List String
  warnings : Nat
deriving Repr, DecidableEq

/-- `os.chdir` target resolution: an absolute path replaces the working
directory, a relative one is resolved against it. -/
def resolveChdir (cur target : String) : String :=
  if pyStartswith target "/" then target else cur ++ "/" ++ target

/-- The `name[:name.find('/')]` subdirectory of a slash-qualified save
name. -/
def subdirOf (name : String) : String :=
  ⟨name.data.takeWhile (fun c => c ≠ '/')⟩

/-- `_save(name, logy)`:

  * if `self._directory` is set: remember `getcwd()`, create the
    directory if missing, `chdir` into it;
  * if `name` contains `'/'`: create the subdirectory before the first
    slash if missing;
  * if `logy`: set log scale and attempt the best-effort Y-range patch on
    the second canvas primitive; on `AttributeError` (modelled by
    `adjustOk = false`) log a warning and continue;
  * `SaveAs('{name}.pdf')`;
  * if `logy`: unset log scale, attempt the symmetric patch, swallowing
    `AttributeError`;
  * if `self._directory` is set: `chdir` back to the remembered `cwd`.

`directory` is `self._directory`; `adjustOk` is the oracle for whether
the canvas primitive layout matches the assumed convention. -/
def save (directory name : String) (logy adjustOk : Bool) (fs : FsState) :
    FsState :=
  let cwd0 := fs.cwd
  let fs1 :=
    if directory ≠ "" then
      let fs' :=
        if directory ∈ fs.dirs then fs
        else { fs with dirs := fs.dirs ++ [directory] }
      { fs' with cwd := resolveChdir fs'.cwd directory }
    else fs
  let fs2 :=
    if '/' ∈ name.data then
      if subdirOf name ∈ fs1.dirs then fs1
      else { fs1 with dirs := fs1.dirs ++ [subdirOf name] }
    else fs1
  let fs3 :=
    if logy ∧ ¬ adjustOk then { fs2 with warnings := fs2.warnings + 1 }
    else fs2
  let fs4 := { fs3 with saved := fs3.saved ++ [name ++ ".pdf"] }
  let fs5 := fs4
  if directory ≠ "" then { fs5 with cwd := resolveChdir fs5.cwd cwd0 }
  else fs5

/-- A node of the hierarchical store walked by `_getKeys`: each key is a
leaf (a histogram) or a folder with an ordered child list, as exposed by
`GetListOfKeys()` / `IsFolder()`. -/
inductive RKey where
  | leaf (name : String)
  | folder (name : String) (children : List RKey)
deriving Repr

/-- The `GetName()` of a key. -/
def RKey.name : RKey → String
  | .leaf n => n
  | .folder n _ => n

/-- `kname = '{}/{}'.format(subdir, key.GetName())` when a subdirectory
is given, else `key.GetName()`. -/
def qualify (subdir : Option String) (name : String) : String :=
  match subdir with
  | some d => d ++ "/" ++ name
  | none => name

/-- The body of `_getKeys` applied to one key of `obj.GetListOfKeys()`
with the enclosing prefix `sub`: a folder recurses into its children
with the qualified name as new prefix, a leaf yields its qualified
name. -/
def walkNode (sub : Option String) (k : RKey) : List String :=
  match k with
  | .leaf n => [qualify sub n]
  | .folder n cs =>
    (cs.attach.map (fun c => walkNode (some (qualify sub n)) c.1)).flatten
termination_by sizeOf k
decreasing_by
  have h1 := List.sizeOf_lt_of_mem c.2
  simp only [RKey.folder.sizeOf_spec]
  omega

/-- `_getKeys(subdir)` on a store with the given root keys: iterate over
the keys of the object at `subdir` (the whole file when `subdir` is
`none`), yielding qualified leaf names and recursing into folders. -/
def getKeys (rootKeys : List RKey) (sub : Option String) : List String :=
  (rootKeys.map (walkNode sub)).flatten

/-- Shift parameter recorded for a successfully fitted key. -/
def fitShift (fit : String → Option (ℚ × ℚ)) (k : String) : ℚ :=
  ((fit k).getD (0, 0)).1

/-- Width parameter recorded for a successfully fitted key. -/
def fitWidth (fit : String → Option (ℚ × ℚ)) (k : String) : ℚ :=
  ((fit k).getD (0, 0)).2

/-- The keys the loop will still append when `count` series have already
been counted. -/
def capSel (fit : String → Option (ℚ × ℚ)) (cbc : Nat) (channels : Int)
    (count : Nat) (keys : List String) : List String :=
  if channels > 0 then
    (keys.filter (goodKey fit cbc)).take (channels.toNat - count)
  else keys.filter (goodKey fit cbc)

/-- The keys whose loop body still runs when `m` more series may be
counted before the cap: traversal stops right after the `m`-th key
satisfying `good`. -/
def visitSpec (good : String → Bool) : List String → Nat → List String
  | [], _ => []
  | k :: ks, m =>
    if m = 0 then []
    else if good k then k :: visitSpec good ks (m - 1)
    else k :: visitSpec good ks m

/-- A name free of the path separator, as any `GetName()` of a
well-formed hierarchical store is. -/
def noSlash (s : String) : Bool :=
  s.data.all (fun c => ¬ c = '/')

/-- Well-formedness of a store node: separator-free names and, per
folder, distinct child names (the store's LeafKey-uniqueness invariant:
a qualified key resolves to at most one object). -/
inductive WF : RKey → Prop where
  | leaf : ∀ n, noSlash n = true → WF (.leaf n)
  | folder : ∀ n cs, noSlash n = true → (cs.map RKey.name).Nodup →
      (∀ c ∈ cs, WF c) → WF (.folder n cs)

/-- Concrete fixture keys: two fitted S-curves (CBC 0 channel 0, CBC 1
channel 0) and one whose fit fails (CBC 0 channel 1). -/
def key00 : String := "Final0/Scurve_Be0_Fe0_Cbc0_Ch0"

/-- Fixture key whose fit fails. -/
def key01 : String := "Final0/Scurve_Be0_Fe0_Cbc0_Ch1"

/-- Fixture key of the second group. -/
def key10 : String := "Final0/Scurve_Be0_Fe0_Cbc1_Ch0"

/-- Fixture fit oracle: `key00` and `key10` fit with shift 120 and
width 10, every other histogram raises `TypeError` on parameter
extraction. -/
def demoFit : String → Option (ℚ × ℚ) := fun k =>
  if k = key00 ∨ k = key10 then some (120, 10) else none

/-- Fixture key sequence, as `_getKeys('Final0')` would yield it. -/
def demoKeys : List String := [key00, key01, key10]

/-- Fixture store for the walker: `Final0` holding two histograms and a
nested folder. -/
def demoTree : RKey :=
  .folder "Final0" [.leaf "a", .folder "sub" [.leaf "b"], .leaf "c"]

theorem drawLoop_state (fit : String → Option (ℚ × ℚ)) (cbc : Nat)
    (channels : Int) :
    ∀ (keys : List String) (count : Nat) (st : PlotsState),
    (drawLoop fit cbc channels keys count st).1 =
      ⟨st.histos ++ capSel fit cbc channels count keys,
       st.shifts ++ (capSel fit cbc channels count keys).map (fitShift fit),
       st.widths ++ (capSel fit cbc channels count keys).map (fitWidth fit)⟩ := by
  intro keys
  induction keys with
  | nil =>
    intro count st
    simp [drawLoop, capSel]
  | cons k rest ih =>
    intro count st
    by_cases hbrk : channels > 0 ∧ (count : Int) ≥ channels
    · have hsel : capSel fit cbc channels count (k :: rest) = [] := by
        have h0 : channels.toNat - count = 0 := by omega
        simp [capSel, hbrk.1, h0]
      simp [drawLoop, if_pos hbrk, hsel]
    · by_cases hmatch : pyStartswith k (scurvePat "Final0" cbc)
      · cases hfit : fit k with
        | none =>
          have hgood : goodKey fit cbc k = false := by
            simp [goodKey, hfit]
          have hsel : capSel fit cbc channels count (k :: rest) =
              capSel fit cbc channels count rest := by
            simp [capSel, List.filter_cons, hgood]
          simp only [drawLoop, if_neg hbrk, hmatch, not_true, if_neg, hfit]
          simp [ih, hsel]
        | some p =>
          obtain ⟨sh, w⟩ := p
          have hgood : goodKey fit cbc k = true := by
            simp [goodKey, hmatch, hfit]
          have hsel : capSel fit cbc channels count (k :: rest) =
              k :: capSel fit cbc channels (count + 1) rest := by
            by_cases hpos : channels > 0
            · have harith : channels.toNat - count =
                  (channels.toNat - (count + 1)) + 1 := by omega
              simp [capSel, hpos, List.filter_cons, hgood, harith]
            · simp [capSel, hpos, List.filter_cons, hgood]
          simp only [drawLoop, if_neg hbrk, hmatch, not_true, if_neg, hfit]
          simp [ih, hsel, fitShift, fitWidth, hfit]
      · have hgood : goodKey fit cbc k = false := by
          simp [goodKey, hmatch]
        have hsel : capSel fit cbc channels count (k :: rest) =
            capSel fit cbc channels count rest := by
          simp [capSel, List.filter_cons, hgood]
        simp only [drawLoop, if_neg hbrk]
        rw [if_pos (by simpa using hmatch : ¬ pyStartswith k (scurvePat "Final0" cbc) = true)]
        simp [ih, hsel]

theorem drawLoop_visited_capped (fit : String → Option (ℚ × ℚ)) (cbc : Nat)
    (channels : Int) (hch : 0 < channels) :
    ∀ (keys : List String) (count : Nat) (st : PlotsState),
    (drawLoop fit cbc channels keys count st).2.visited =
      visitSpec (goodKey fit cbc) keys (channels.toNat - count) := by
  intro keys
  induction keys with
  | nil => intro count st; simp [drawLoop, visitSpec]
  | cons k rest ih =>
    intro count st
    by_cases hbrk : channels > 0 ∧ (count : Int) ≥ channels
    · have h0 : channels.toNat - count = 0 := by omega
      simp [drawLoop, if_pos hbrk, visitSpec, h0]
    · have hm : ¬ channels.toNat - count = 0 := by omega
      by_cases hmatch : pyStartswith k (scurvePat "Final0" cbc)
      · cases hfit : fit k with
        | none =>
          have hgood : goodKey fit cbc k = false := by simp [goodKey, hfit]
          simp only [drawLoop, if_neg hbrk, hmatch, not_true, if_neg, hfit]
          simp [visitSpec, hm, hgood, ih]
        | some p =>
          obtain ⟨sh, w⟩ := p
          have hgood : goodKey fit cbc k = true := by
            simp [goodKey, hmatch, hfit]
          have harith : channels.toNat - count - 1 =
              channels.toNat - (count + 1) := by omega
          simp only [drawLoop, if_neg hbrk, hmatch, not_true, if_neg, hfit]
          simp [visitSpec, hm, hgood, ih, harith]
      · have hgood : goodKey fit cbc k = false := by simp [goodKey, hmatch]
        simp only [drawLoop, if_neg hbrk]
        rw [if_pos (by simpa using hmatch : ¬ pyStartswith k (scurvePat "Final0" cbc) = true)]
        simp [visitSpec, hm, hgood, ih]

theorem drawLoop_visited_unbounded (fit : String → Option (ℚ × ℚ)) (cbc : Nat)
    (channels : Int) (hch : channels ≤ 0) :
    ∀ (keys : List String) (count : Nat) (st : PlotsState),
    (drawLoop fit cbc channels keys count st).2.visited = keys := by
  intro keys
  induction keys with
  | nil => intro count st; simp [drawLoop]
  | cons k rest ih =>
    intro count st
    have hbrk : ¬ (channels > 0 ∧ (count : Int) ≥ channels) := by omega
    by_cases hmatch : pyStartswith k (scurvePat "Final0" cbc)
    · cases hfit : fit k with
      | none =>
        simp only [drawLoop, if_neg hbrk, hmatch, not_true, if_neg, hfit]
        simp [ih]
      | some p =>
        obtain ⟨sh, w⟩ := p
        simp only [drawLoop, if_neg hbrk, hmatch, not_true, if_neg, hfit]
        simp [ih]
    · simp only [drawLoop, if_neg hbrk]
      rw [if_pos (by simpa using hmatch : ¬ pyStartswith k (scurvePat "Final0" cbc) = true)]
      simp [ih]

theorem visitSpec_isPrefix (good : String → Bool) :
    ∀ (ks : List String) (m : Nat), visitSpec good ks m <+: ks := by
  intro ks
  induction ks with
  | nil => intro m; simp [visitSpec]
  | cons k rest ih =>
    intro m
    by_cases hm : m = 0
    · simp [visitSpec, hm]
    · by_cases hg : good k
      · have h2 : visitSpec good (k :: rest) m = k :: visitSpec good rest (m - 1) := by
          simp [visitSpec, hm, hg]
        rw [h2, List.cons_prefix_cons]
        exact ⟨rfl, ih (m - 1)⟩
      · have h2 : visitSpec good (k :: rest) m = k :: visitSpec good rest m := by
          simp [visitSpec, hm, hg]
        rw [h2, List.cons_prefix_cons]
        exact ⟨rfl, ih m⟩

theorem visitSpec_countP (good : String → Bool) :
    ∀ (ks : List String) (m : Nat),
    (visitSpec good ks m).countP good = min m (ks.countP good) := by
  intro ks
  induction ks with
  | nil => intro m; simp [visitSpec]
  | cons k rest ih =>
    intro m
    by_cases hm : m = 0
    · simp [visitSpec, hm]
    · by_cases hg : good k
      · simp [visitSpec, hm, hg, List.countP_cons, ih]
        omega
      · simp [visitSpec, hm, hg, List.countP_cons, ih]

theorem visitSpec_stops (good : String → Bool) :
    ∀ (ks : List String) (m : Nat), m < ks.countP good →
    (visitSpec good ks m).length < ks.length := by
  intro ks
  induction ks with
  | nil => intro m h; rw [List.countP_nil] at h; omega
  | cons k rest ih =>
    intro m h
    by_cases hm : m = 0
    · simp [visitSpec, hm]
    · by_cases hg : good k
      · have : m - 1 < rest.countP good := by
          simp [List.countP_cons, hg] at h; omega
        simpa [visitSpec, hm, hg] using ih (m - 1) this
      · have : m < rest.countP good := by
          simp [List.countP_cons, hg] at h; omega
        simpa [visitSpec, hm, hg] using ih m this

theorem drawLoop_colorCalls (fit : String → Option (ℚ × ℚ)) (cbc : Nat)
    (channels : Int) :
    ∀ (keys : List String) (count : Nat) (st : PlotsState)
      (p : Nat × Bool),
    p ∈ (drawLoop fit cbc channels keys count st).2.colorCalls →
    p.2 = decide (channels > 0 ∧ channels < 19) := by
  intro keys
  induction keys with
  | nil => intro count st p hp; simp [drawLoop] at hp
  | cons k rest ih =>
    intro count st p hp
    by_cases hbrk : channels > 0 ∧ (count : Int) ≥ channels
    · simp [drawLoop, if_pos hbrk] at hp
    · by_cases hmatch : pyStartswith k (scurvePat "Final0" cbc)
      · cases hfit : fit k with
        | none =>
          simp only [drawLoop, if_neg hbrk, hmatch, not_true, if_neg, hfit] at hp
          exact ih _ _ p hp
        | some q =>
          obtain ⟨sh, w⟩ := q
          simp only [drawLoop, if_neg hbrk, hmatch, not_true, if_neg, hfit] at hp
          rcases List.mem_cons.mp hp with rfl | hp2
          · rfl
          rcases List.mem_cons.mp hp2 with rfl | hp3
          · rfl
          rcases List.mem_cons.mp hp3 with rfl | hp4
          · rfl
          exact ih _ _ p hp4
      · simp only [drawLoop, if_neg hbrk] at hp
        rw [if_pos (by simpa using hmatch : ¬ pyStartswith k (scurvePat "Final0" cbc) = true)] at hp
        exact ih _ _ p hp

theorem drawLoop_no_match (fit : String → Option (ℚ × ℚ)) (cbc : Nat)
    (channels : Int) :
    ∀ (keys : List String) (count : Nat) (st : PlotsState),
    (∀ k ∈ keys, pyStartswith k (scurvePat "Final0" cbc) = false) →
    (drawLoop fit cbc channels keys count st).1 = st ∧
    (drawLoop fit cbc channels keys count st).2.colorCalls = [] ∧
    (drawLoop fit cbc channels keys count st).2.saved = [] := by
  intro keys
  induction keys with
  | nil => intro count st _; simp [drawLoop]
  | cons k rest ih =>
    intro count st hall
    by_cases hbrk : channels > 0 ∧ (count : Int) ≥ channels
    · simp [drawLoop, if_pos hbrk]
    · have hk : pyStartswith k (scurvePat "Final0" cbc) = false :=
        hall k (by simp)
      have hrest : ∀ k ∈ rest, pyStartswith k (scurvePat "Final0" cbc) = false :=
        fun k hk => hall k (by simp [hk])
      simp only [drawLoop, if_neg hbrk]
      rw [if_pos (by simp [hk] : ¬ pyStartswith k (scurvePat "Final0" cbc) = true)]
      simpa using ih count st hrest

theorem min?_of_ne_nil {l : List ℚ} (h : l ≠ []) : ∃ a, l.min? = some a := by
  cases l with
  | nil => exact absurd rfl h
  | cons x xs => exact ⟨xs.foldl min x, rfl⟩

theorem max?_of_ne_nil {l : List ℚ} (h : l ≠ []) : ∃ a, l.max? = some a := by
  cases l with
  | nil => exact absurd rfl h
  | cons x xs => exact ⟨xs.foldl max x, rfl⟩

theorem zip_ne_nil_of_lengths {st : PlotsState}
    (h1 : st.shifts.length = st.histos.length)
    (h2 : st.widths.length = st.histos.length) (hh : st.histos ≠ []) :
    st.shifts.zip st.widths ≠ [] := by
  have : (st.shifts.zip st.widths).length = st.histos.length := by
    rw [List.length_zip, h1, h2]; omega
  intro hzip
  rw [hzip] at this
  simp at this
  exact hh (List.eq_nil_of_length_eq_zero this.symm)

theorem drawAllErrf_ok (st : PlotsState)
    (h1 : st.shifts.length = st.histos.length)
    (h2 : st.widths.length = st.histos.length) :
    ∃ b, drawAllErrf st = .ok b := by
  by_cases hh : st.histos = []
  · exact ⟨none, by simp [drawAllErrf, hh]⟩
  · have hz := zip_ne_nil_of_lengths h1 h2 hh
    obtain ⟨a, ha⟩ := min?_of_ne_nil
      (l := (st.shifts.zip st.widths).map (fun sw => sw.1 - 5 * sw.2))
      (by simpa using hz)
    obtain ⟨b, hb⟩ := max?_of_ne_nil
      (l := (st.shifts.zip st.widths).map (fun sw => sw.1 + 5 * sw.2))
      (by simpa using hz)
    exact ⟨some (a, b), by simp [drawAllErrf, hh, getXmin, getXmax, ha, hb]⟩

theorem drawAllErrfFit_eq_drawAllErrf (st : PlotsState) :
    drawAllErrfFit st = drawAllErrf st := rfl

theorem drawAllErrfFitMeas_eq_drawAllErrf (st : PlotsState) :
    drawAllErrfFitMeas st = drawAllErrf st := rfl

theorem drawScurves_ok (fit : String → Option (ℚ × ℚ)) (cbc : Nat)
    (channels : Int) (keys : List String) (st : PlotsState)
    (h1 : st.shifts.length = st.histos.length)
    (h2 : st.widths.length = st.histos.length) :
    drawScurves fit cbc channels keys st =
      .ok (drawLoop fit cbc channels keys 0 st) := by
  have hst := drawLoop_state fit cbc channels keys 0 st
  have h1' : (drawLoop fit cbc channels keys 0 st).1.shifts.length =
      (drawLoop fit cbc channels keys 0 st).1.histos.length := by
    rw [hst]; simp [h1]
  have h2' : (drawLoop fit cbc channels keys 0 st).1.widths.length =
      (drawLoop fit cbc channels keys 0 st).1.histos.length := by
    rw [hst]; simp [h2]
  obtain ⟨b, hb⟩ := drawAllErrf_ok _ h1' h2'
  simp only [drawScurves, drawAllErrfFit_eq_drawAllErrf,
    drawAllErrfFitMeas_eq_drawAllErrf, hb]
  rfl

/-- C2: with a positive cap `N` the series `_drawScurves` adds to the
accumulator are exactly the first `N` of those an unbounded run
(`channels ≤ 0`) would add — hence at most `N`, and a prefix of the
unbounded selection in discovery order — and the loop's traversal stops
at the cap: it visits a prefix of the key sequence containing at most
`N` selectable keys, strictly shorter than the whole sequence whenever
more than `N` selectable keys exist. -/
theorem drawScurves_cap_is_prefix_of_unbounded
    (fit : String → Option (ℚ × ℚ)) (cbc : Nat) (N M : Int)
    (keys : List String) (hN : 0 < N) (hM : M ≤ 0) :
    (drawLoop fit cbc N keys 0 plotsInit).1.histos =
      ((drawLoop fit cbc M keys 0 plotsInit).1.histos).take N.toNat ∧
    (drawLoop fit cbc N keys 0 plotsInit).1.histos.length ≤ N.toNat ∧
    (drawLoop fit cbc N keys 0 plotsInit).1.histos <+:
      (drawLoop fit cbc M keys 0 plotsInit).1.histos ∧
    (drawLoop fit cbc N keys 0 plotsInit).2.visited <+: keys ∧
    ((drawLoop fit cbc N keys 0 plotsInit).2.visited).countP (goodKey fit cbc)
      ≤ N.toNat ∧
    (N.toNat < keys.countP (goodKey fit cbc) →
      (drawLoop fit cbc N keys 0 plotsInit).2.visited.length < keys.length) := by
  have hstN := drawLoop_state fit cbc N keys 0 plotsInit
  have hstM := drawLoop_state fit cbc M keys 0 plotsInit
  have hcapN : capSel fit cbc N 0 keys =
      (keys.filter (goodKey fit cbc)).take N.toNat := by
    simp [capSel, hN]
  have hcapM : capSel fit cbc M 0 keys = keys.filter (goodKey fit cbc) := by
    have : ¬ M > 0 := by omega
    simp [capSel, this]
  have hN' : (drawLoop fit cbc N keys 0 plotsInit).1.histos =
      (keys.filter (goodKey fit cbc)).take N.toNat := by
    rw [hstN, hcapN]; simp [plotsInit]
  have hM' : (drawLoop fit cbc M keys 0 plotsInit).1.histos =
      keys.filter (goodKey fit cbc) := by
    rw [hstM, hcapM]; simp [plotsInit]
  have hvis := drawLoop_visited_capped fit cbc N hN keys 0 plotsInit
  refine ⟨by rw [hN', hM'], ?_, ?_, ?_, ?_, ?_⟩
  · rw [hN']
    simp
  · rw [hN', hM']
    exact List.take_prefix _ _
  · rw [hvis]
    exact visitSpec_isPrefix _ _ _
  · rw [hvis, visitSpec_countP]
    simp
  · intro hmore
    rw [hvis]
    exact visitSpec_stops _ _ _ (by omega)

/-- Witness for C2 on the fixture: cap 1 against a run with one
selectable CBC-0 key. -/
theorem drawScurves_cap_is_prefix_of_unbounded_witness :
    (drawLoop demoFit 0 1 demoKeys 0 plotsInit).1.histos =
      ((drawLoop demoFit 0 (-1) demoKeys 0 plotsInit).1.histos).take
        (1 : Int).toNat ∧
    (drawLoop demoFit 0 1 demoKeys 0 plotsInit).1.histos.length ≤
      (1 : Int).toNat ∧
    (drawLoop demoFit 0 1 demoKeys 0 plotsInit).1.histos <+:
      (drawLoop demoFit 0 (-1) demoKeys 0 plotsInit).1.histos ∧
    (drawLoop demoFit 0 1 demoKeys 0 plotsInit).2.visited <+: demoKeys ∧
    ((drawLoop demoFit 0 1 demoKeys 0 plotsInit).2.visited).countP
      (goodKey demoFit 0) ≤ (1 : Int).toNat ∧
    ((1 : Int).toNat < demoKeys.countP (goodKey demoFit 0) →
      (drawLoop demoFit 0 1 demoKeys 0 plotsInit).2.visited.length <
        demoKeys.length) :=
  drawScurves_cap_is_prefix_of_unbounded demoFit 0 1 (-1) demoKeys
    (by decide) (by decide)

/-- C7: the accumulator invariant `len(shifts) == len(widths) ==
len(histos)` is preserved by the `_drawScurves` loop: starting from any
state satisfying it, after processing any prefix of the key sequence
(i.e. after every step) the three lists still have equal length, and
that common length grew by exactly one entry per selected
successfully-fitted series. -/
theorem drawScurves_parallel_lists (fit : String → Option (ℚ × ℚ))
    (cbc : Nat) (channels : Int) (keys : List String) (count : Nat)
    (st : PlotsState)
    (h1 : st.shifts.length = st.widths.length)
    (h2 : st.widths.length = st.histos.length) :
    ∀ p, p <+: keys →
      (drawLoop fit cbc channels p count st).1.shifts.length =
        (drawLoop fit cbc channels p count st).1.widths.length ∧
      (drawLoop fit cbc channels p count st).1.widths.length =
        (drawLoop fit cbc channels p count st).1.histos.length ∧
      (drawLoop fit cbc channels p count st).1.histos.length =
        st.histos.length + (capSel fit cbc channels count p).length := by
  intro p _
  have hst := drawLoop_state fit cbc channels p count st
  rw [hst]
  simp [h1, h2]

/-- Witness for C7 on the fixture keys from a state holding one fitted
series. -/
theorem drawScurves_parallel_lists_witness :
    (drawLoop demoFit 0 (-1) demoKeys 0 ⟨["h"], [1], [2]⟩).1.shifts.length =
      (drawLoop demoFit 0 (-1) demoKeys 0 ⟨["h"], [1], [2]⟩).1.widths.length ∧
    (drawLoop demoFit 0 (-1) demoKeys 0 ⟨["h"], [1], [2]⟩).1.widths.length =
      (drawLoop demoFit 0 (-1) demoKeys 0 ⟨["h"], [1], [2]⟩).1.histos.length ∧
    (drawLoop demoFit 0 (-1) demoKeys 0 ⟨["h"], [1], [2]⟩).1.histos.length =
      (⟨["h"], [1], [2]⟩ : PlotsState).histos.length +
        (capSel demoFit 0 (-1) 0 demoKeys).length :=
  drawScurves_parallel_lists demoFit 0 (-1) demoKeys 0 ⟨["h"], [1], [2]⟩
    rfl rfl demoKeys (List.prefix_refl demoKeys)

/-- C9: every `_getColor` call issued while drawing S-curves passes
`nice = (channels > 0 and channels < 19)`: the compact palette is
selected exactly when the caller-declared cap lies strictly between 0
and 19. -/
theorem drawScurves_nice_flag (fit : String → Option (ℚ × ℚ)) (cbc : Nat)
    (channels : Int) (keys : List String) (count : Nat) (st : PlotsState)
    (p : Nat × Bool)
    (hp : p ∈ (drawLoop fit cbc channels keys count st).2.colorCalls) :
    p.2 = true ↔ (0 < channels ∧ channels < 19) := by
  rw [drawLoop_colorCalls fit cbc channels keys count st p hp]
  simp

/-- Witness for C9: a fitted series drawn with cap 5 uses the compact
palette. -/
theorem drawScurves_nice_flag_witness :
    (0, true) ∈ (drawLoop demoFit 0 5 demoKeys 0 plotsInit).2.colorCalls ∧
    ((0, true).2 = true ↔ ((0 : Int) < 5 ∧ (5 : Int) < 19)) :=
  ⟨by decide,
   drawScurves_nice_flag demoFit 0 5 demoKeys 0 plotsInit (0, true)
     (by decide)⟩

/-- C4: a series whose fit does not attach parameters (`TypeError` on
extraction, `fit k = none`) is excluded from the accumulator — nothing
is appended to histos/shifts/widths for it — and `_drawScurves` still
returns normally (the embedding's `ok`, mirroring the `try/except
TypeError: continue`). -/
theorem drawScurves_fit_failure_excluded (fit : String → Option (ℚ × ℚ))
    (cbc : Nat) (channels : Int) (keys : List String) (k : String)
    (hk : fit k = none) :
    ∃ st tr, drawScurves fit cbc channels keys plotsInit = .ok (st, tr) ∧
      k ∉ st.histos ∧
      st.histos = capSel fit cbc channels 0 keys ∧
      st.shifts.length = st.histos.length ∧
      st.widths.length = st.histos.length := by
  have hok := drawScurves_ok fit cbc channels keys plotsInit rfl rfl
  have hst := drawLoop_state fit cbc channels keys 0 plotsInit
  refine ⟨(drawLoop fit cbc channels keys 0 plotsInit).1,
    (drawLoop fit cbc channels keys 0 plotsInit).2, hok, ?_, ?_, ?_, ?_⟩
  · rw [hst]
    simp only [plotsInit, List.nil_append]
    intro hmem
    have hgood : goodKey fit cbc k = true := by
      have : k ∈ keys.filter (goodKey fit cbc) := by
        by_cases hch : channels > 0
        · exact List.mem_of_mem_take (by simpa [capSel, hch] using hmem)
        · simpa [capSel, hch] using hmem
      exact (List.mem_filter.mp this).2
    simp [goodKey, hk] at hgood
  · rw [hst]; simp [plotsInit]
  · rw [hst]; simp [plotsInit]
  · rw [hst]; simp [plotsInit]

/-- Witness for C4: the fixture's failing channel is absent from the
accumulator. -/
theorem drawScurves_fit_failure_excluded_witness :
    ∃ st tr, drawScurves demoFit 0 (-1) demoKeys plotsInit = .ok (st, tr) ∧
      key01 ∉ st.histos ∧
      st.histos = capSel demoFit 0 (-1) 0 demoKeys ∧
      st.shifts.length = st.histos.length ∧
      st.widths.length = st.histos.length :=
  drawScurves_fit_failure_excluded demoFit 0 (-1) demoKeys key01 (by decide)

/-- C8: a group with zero matching keys raises nothing: the loop selects
no series, the accumulator stays empty (no individual-series saves, no
color assignments), and each aggregate render completes without drawing
and without invoking the empty-ensemble bounds computation
(`ok none`: `_getXmin`/`_getXmax` are never reached). -/
theorem drawScurves_empty_group (fit : String → Option (ℚ × ℚ)) (cbc : Nat)
    (channels : Int) (keys : List String)
    (hnone : ∀ k ∈ keys, pyStartswith k (scurvePat "Final0" cbc) = false) :
    keys.filter (fun k => pyStartswith k (scurvePat "Final0" cbc)) = [] ∧
    ∃ tr, drawScurves fit cbc channels keys plotsInit = .ok (plotsInit, tr) ∧
      tr.saved = [] ∧ tr.colorCalls = [] ∧
      drawAllErrf plotsInit = .ok none ∧
      drawAllErrfFit plotsInit = .ok none ∧
      drawAllErrfFitMeas plotsInit = .ok none := by
  obtain ⟨hstate, hcc, hsv⟩ :=
    drawLoop_no_match fit cbc channels keys 0 plotsInit hnone
  refine ⟨?_, (drawLoop fit cbc channels keys 0 plotsInit).2, ?_, hsv, hcc,
    rfl, rfl, rfl⟩
  · rw [List.filter_eq_nil_iff]
    intro k hk
    simp [hnone k hk]
  · have hok := drawScurves_ok fit cbc channels keys plotsInit rfl rfl
    rw [hok]
    exact congrArg Except.ok (Prod.ext hstate rfl)

/-- Witness for C8: none of the fixture keys matches CBC 7. -/
theorem drawScurves_empty_group_witness :
    demoKeys.filter (fun k => pyStartswith k (scurvePat "Final0" 7)) = [] ∧
    ∃ tr, drawScurves demoFit 7 (-1) demoKeys plotsInit = .ok (plotsInit, tr) ∧
      tr.saved = [] ∧ tr.colorCalls = [] ∧
      drawAllErrf plotsInit = .ok none ∧
      drawAllErrfFit plotsInit = .ok none ∧
      drawAllErrfFitMeas plotsInit = .ok none :=
  drawScurves_empty_group demoFit 7 (-1) demoKeys (by decide)

theorem foldl_min_spec (x : ℚ) (xs : List ℚ) :
    xs.foldl min x ∈ x :: xs ∧ ∀ b ∈ x :: xs, xs.foldl min x ≤ b := by
  induction xs generalizing x with
  | nil => simp
  | cons y ys ih =>
    obtain ⟨hmem, hle⟩ := ih (min x y)
    have hfold : (y :: ys).foldl min x = ys.foldl min (min x y) := rfl
    constructor
    · rw [hfold]
      rcases List.mem_cons.mp hmem with h | h
      · rcases min_choice x y with h2 | h2 <;> rw [h, h2] <;> simp
      · simp [h]
    · intro b hb
      rw [hfold]
      rcases List.mem_cons.mp hb with hbx | hb2
      · rw [hbx]
        exact (hle (min x y) (by simp)).trans (min_le_left x y)
      · rcases List.mem_cons.mp hb2 with hby | hb3
        · rw [hby]
          exact (hle (min x y) (by simp)).trans (min_le_right x y)
        · exact hle b (by simp [hb3])

theorem foldl_max_spec (x : ℚ) (xs : List ℚ) :
    xs.foldl max x ∈ x :: xs ∧ ∀ b ∈ x :: xs, b ≤ xs.foldl max x := by
  induction xs generalizing x with
  | nil => simp
  | cons y ys ih =>
    obtain ⟨hmem, hle⟩ := ih (max x y)
    have hfold : (y :: ys).foldl max x = ys.foldl max (max x y) := rfl
    constructor
    · rw [hfold]
      rcases List.mem_cons.mp hmem with h | h
      · rcases max_choice x y with h2 | h2 <;> rw [h, h2] <;> simp
      · simp [h]
    · intro b hb
      rw [hfold]
      rcases List.mem_cons.mp hb with hbx | hb2
      · rw [hbx]
        exact (le_max_left x y).trans (hle (max x y) (by simp))
      · rcases List.mem_cons.mp hb2 with hby | hb3
        · rw [hby]
          exact (le_max_right x y).trans (hle (max x y) (by simp))
        · exact hle b (by simp [hb3])

theorem min?_spec {l : List ℚ} {a : ℚ} (h : l.min? = some a) :
    a ∈ l ∧ ∀ b ∈ l, a ≤ b := by
  cases l with
  | nil => simp [List.min?] at h
  | cons x xs =>
    have hx : a = xs.foldl min x := by
      have : some (xs.foldl min x) = some a := h
      exact (Option.some.inj this).symm
    rw [hx]
    exact foldl_min_spec x xs

theorem max?_spec {l : List ℚ} {a : ℚ} (h : l.max? = some a) :
    a ∈ l ∧ ∀ b ∈ l, b ≤ a := by
  cases l with
  | nil => simp [List.max?] at h
  | cons x xs =>
    have hx : a = xs.foldl max x := by
      have : some (xs.foldl max x) = some a := h
      exact (Option.some.inj this).symm
    rw [hx]
    exact foldl_max_spec x xs

/-- C3: on a non-empty ensemble, `_getXmin`/`_getXmax` return bounds
with `xmin ≤ shift - 5*width` and `xmax ≥ shift + 5*width` for every
`(shift, width)` entry of `zip(shifts, widths)`, and each bound is
attained by some entry (the fixed multiplier `k` of both functions
is 5). -/
theorem bounds_tight (st : PlotsState)
    (hne : st.shifts.zip st.widths ≠ []) :
    ∃ xmin xmax, getXmin st = some xmin ∧ getXmax st = some xmax ∧
      (∀ sw ∈ st.shifts.zip st.widths,
        xmin ≤ sw.1 - 5 * sw.2 ∧ sw.1 + 5 * sw.2 ≤ xmax) ∧
      (∃ sw ∈ st.shifts.zip st.widths, xmin = sw.1 - 5 * sw.2) ∧
      (∃ sw ∈ st.shifts.zip st.widths, xmax = sw.1 + 5 * sw.2) := by
  obtain ⟨a, ha⟩ := min?_of_ne_nil
    (l := (st.shifts.zip st.widths).map (fun sw => sw.1 - 5 * sw.2))
    (by simpa using hne)
  obtain ⟨b, hb⟩ := max?_of_ne_nil
    (l := (st.shifts.zip st.widths).map (fun sw => sw.1 + 5 * sw.2))
    (by simpa using hne)
  obtain ⟨hamem, hale⟩ := min?_spec ha
  obtain ⟨hbmem, hble⟩ := max?_spec hb
  refine ⟨a, b, ha, hb, ?_, ?_, ?_⟩
  · intro sw hsw
    exact ⟨hale _ (List.mem_map_of_mem _ hsw), hble _ (List.mem_map_of_mem _ hsw)⟩
  · obtain ⟨sw, hsw, hswa⟩ := List.mem_map.mp hamem
    exact ⟨sw, hsw, hswa.symm⟩
  · obtain ⟨sw, hsw, hswb⟩ := List.mem_map.mp hbmem
    exact ⟨sw, hsw, hswb.symm⟩

/-- Witness for C3 on a two-entry ensemble. -/
theorem bounds_tight_witness :
    ∃ xmin xmax, getXmin ⟨["a", "b"], [120, 100], [10, 2]⟩ = some xmin ∧
      getXmax ⟨["a", "b"], [120, 100], [10, 2]⟩ = some xmax ∧
      (∀ sw ∈ ([(120 : ℚ), 100].zip [(10 : ℚ), 2]),
        xmin ≤ sw.1 - 5 * sw.2 ∧ sw.1 + 5 * sw.2 ≤ xmax) ∧
      (∃ sw ∈ ([(120 : ℚ), 100].zip [(10 : ℚ), 2]), xmin = sw.1 - 5 * sw.2) ∧
      (∃ sw ∈ ([(120 : ℚ), 100].zip [(10 : ℚ), 2]), xmax = sw.1 + 5 * sw.2) :=
  bounds_tight ⟨["a", "b"], [120, 100], [10, 2]⟩ (by decide)

set_option maxRecDepth 8000

/-- C6: `_getColor` is a pure function of `(idx, nice)`; with
`nice=True` it is periodic with exact period 8 (the compact palette
size), with `nice=False` with exact period equal to the full palette
size, which is 206 entries (the spec's "order of 190"). -/
theorem getColor_pure_periodic :
    (∀ idx nice, getColor idx nice = getColor idx nice) ∧
    niceColors.length = 8 ∧ fullColors.length = 206 ∧
    (∀ i, getColor (i + 8) true = getColor i true) ∧
    (∀ i, getColor (i + 206) false = getColor i false) ∧
    (∀ d, d < 8 → 0 < d → getColor d true ≠ getColor 0 true) ∧
    (∀ d, d < 206 → 0 < d → getColor d false ≠ getColor 0 false) := by
  refine ⟨fun _ _ => rfl, rfl, rfl, ?_, ?_, ?_, ?_⟩
  · intro i
    simp [getColor, show niceColors.length = 8 from rfl, Nat.add_mod_right]
  · intro i
    simp [getColor, show fullColors.length = 206 from rfl, Nat.add_mod_right]
  · decide
  · decide

/-- Witness for C6 (the exact-period conjuncts carry hypotheses):
instantiated at `i = 3`, `d = 1`. -/
theorem getColor_pure_periodic_witness :
    getColor (3 + 8) true = getColor 3 true ∧
    getColor (3 + 206) false = getColor 3 false ∧
    getColor 1 true ≠ getColor 0 true ∧
    getColor 1 false ≠ getColor 0 false :=
  ⟨getColor_pure_periodic.2.2.2.1 3,
   getColor_pure_periodic.2.2.2.2.1 3,
   getColor_pure_periodic.2.2.2.2.2.1 1 (by decide) (by decide),
   getColor_pure_periodic.2.2.2.2.2.2 1 (by decide) (by decide)⟩

/-- C1 (refuting the claim; the code keeps the accumulator): processing
consecutive groups with `getScurvePerCbc` does NOT reset `_histos`,
`_shifts`, `_widths` — after the first group fits `key00`, the second
group starts from that state and ends holding both groups' entries, so
the ensemble used by the second group's aggregate renders contains
`key00` even though `key00` does not match the second group's pattern. -/
theorem ensemble_not_reset_between_groups :
    (drawLoop demoFit 0 (-1) demoKeys 0 plotsInit).1 =
      ⟨[key00], [120], [10]⟩ ∧
    (drawLoop demoFit 1 (-1) demoKeys 0 ⟨[key00], [120], [10]⟩).1 =
      ⟨[key00, key10], [120, 120], [10, 10]⟩ ∧
    getScurvePerCbc demoFit demoKeys [0, 1] (-1) plotsInit =
      .ok ⟨[key00, key10], [120, 120], [10, 10]⟩ ∧
    pyStartswith key00 (scurvePat "Final0" 1) = false :=
  ⟨rfl, rfl, rfl, rfl⟩

/-- C10: `_save` always returns with the process working directory it
was called under: when `self._directory` is set it remembers `getcwd()`
(an absolute path), works inside the output directory, and `chdir`s
back at the end — for every `name`, with and without `logy`, and
whether or not the best-effort log-axis adjustment succeeds. -/
theorem save_restores_cwd (directory name : String) (logy adjustOk : Bool)
    (fs : FsState) (habs : pyStartswith fs.cwd "/" = true) :
    (save directory name logy adjustOk fs).cwd = fs.cwd := by
  by_cases hdir : directory = ""
  · simp [save, hdir]
    split_ifs <;> simp
  · simp [save, hdir, resolveChdir, habs]

/-- Witness for C10: saving a slash-qualified name with `logy` and a
failing axis adjustment from an absolute working directory. -/
theorem save_restores_cwd_witness :
    (save "output" "Final0/h" true false ⟨"/data/run1", [], [], 0⟩).cwd =
      (⟨"/data/run1", [], [], 0⟩ : FsState).cwd :=
  save_restores_cwd "output" "Final0/h" true false ⟨"/data/run1", [], [], 0⟩
    (by decide)

theorem walkNode_leaf (sub : Option String) (n : String) :
    walkNode sub (.leaf n) = [qualify sub n] := by
  simp [walkNode]

theorem walkNode_folder (sub : Option String) (n : String) (cs : List RKey) :
    walkNode sub (.folder n cs) =
      (cs.map (fun c => walkNode (some (qualify sub n)) c)).flatten := by
  rw [walkNode]
  exact congrArg List.flatten (List.attach_map_val cs _)

theorem RKey.memRec {P : RKey → Prop} (hleaf : ∀ n, P (.leaf n))
    (hfolder : ∀ n cs, (∀ c ∈ cs, P c) → P (.folder n cs)) :
    ∀ t, P t
  | .leaf n => hleaf n
  | .folder n cs =>
    hfolder n cs (fun c hc => RKey.memRec hleaf hfolder c)
termination_by t => sizeOf t
decreasing_by
  have h1 := List.sizeOf_lt_of_mem hc
  simp only [RKey.folder.sizeOf_spec]
  omega

theorem qualify_some_data (d n : String) :
    (qualify (some d) n).data = d.data ++ '/' :: n.data := by
  simp [qualify, String.data_append]

theorem noSlash_spec {s : String} (h : noSlash s = true) :
    ∀ c ∈ s.data, c ≠ '/' := by
  intro c hc
  have := List.all_eq_true.mp h c hc
  simpa using this

theorem WF.name_noSlash {t : RKey} (h : WF t) : noSlash t.name = true := by
  cases h with
  | leaf n hn => exact hn
  | folder n cs hn _ _ => exact hn

theorem mem_walkNode_shape :
    ∀ t : RKey, ∀ (q : String) (s : String), s ∈ walkNode (some q) t →
      ∃ r, s.data = q.data ++ '/' :: ((RKey.name t).data ++ r) ∧
        (r = [] ∨ ∃ r2, r = '/' :: r2) := by
  refine RKey.memRec ?_ ?_
  · intro n q s hs
    rw [walkNode_leaf] at hs
    rcases List.mem_singleton.mp hs with rfl
    refine ⟨[], ?_, Or.inl rfl⟩
    simp [qualify_some_data, RKey.name]
  · intro n cs ih q s hs
    rw [walkNode_folder] at hs
    obtain ⟨l, hl, hsl⟩ := List.mem_flatten.mp hs
    obtain ⟨c, hc, rfl⟩ := List.mem_map.mp hl
    obtain ⟨r', hr', _⟩ := ih c hc (qualify (some q) n) s hsl
    refine ⟨'/' :: ((RKey.name c).data ++ r'), ?_,
      Or.inr ⟨(RKey.name c).data ++ r', rfl⟩⟩
    rw [hr', qualify_some_data]
    simp [RKey.name]

theorem seg_eq_of_append_eq :
    ∀ (l1 l2 t1 t2 : List Char),
    (∀ c ∈ l1, c ≠ '/') → (∀ c ∈ l2, c ≠ '/') →
    (t1 = [] ∨ ∃ r, t1 = '/' :: r) → (t2 = [] ∨ ∃ r, t2 = '/' :: r) →
    l1 ++ t1 = l2 ++ t2 → l1 = l2 := by
  intro l1
  induction l1 with
  | nil =>
    intro l2 t1 t2 h1 h2 e1 e2 heq
    cases l2 with
    | nil => rfl
    | cons b bs =>
      exfalso
      rcases e1 with rfl | ⟨r, rfl⟩
      · exact absurd heq.symm (by simp)
      · have hb : b = '/' := by
          have := congrArg (List.head? ·) heq
          simpa using this.symm
        exact h2 b (by simp) hb
  | cons a as ih =>
    intro l2 t1 t2 h1 h2 e1 e2 heq
    cases l2 with
    | nil =>
      exfalso
      rcases e2 with rfl | ⟨r, rfl⟩
      · exact absurd heq (by simp)
      · have ha : a = '/' := by
          have := congrArg (List.head? ·) heq
          simpa using this
        exact h1 a (by simp) ha
    | cons b bs =>
      have hab : a = b := by
        have := congrArg (List.head? ·) heq
        simpa using this
      have htail : as ++ t1 = bs ++ t2 := by
        have := congrArg (List.tail ·) heq
        simpa using this
      rw [hab, ih bs t1 t2 (fun c hc => h1 c (by simp [hc]))
        (fun c hc => h2 c (by simp [hc])) e1 e2 htail]

theorem walkNode_nodup {t : RKey} (hwf : WF t) :
    ∀ sub, (walkNode sub t).Nodup := by
  induction hwf with
  | leaf n hn => intro sub; simp [walkNode_leaf]
  | folder n cs hn hnd hcs ih =>
    intro sub
    rw [walkNode_folder, List.nodup_flatten]
    constructor
    · intro l hl
      obtain ⟨c, hc, rfl⟩ := List.mem_map.mp hl
      exact ih c hc _
    · rw [List.pairwise_map]
      have hpn : cs.Pairwise (fun a b => RKey.name a ≠ RKey.name b) :=
        List.pairwise_map.mp hnd
      refine List.Pairwise.imp_of_mem ?_ hpn
      intro a b ha hb hne s hsa hsb
      obtain ⟨r1, hr1, hc1⟩ := mem_walkNode_shape a (qualify sub n) s hsa
      obtain ⟨r2, hr2, hc2⟩ := mem_walkNode_shape b (qualify sub n) s hsb
      have heq : (RKey.name a).data ++ r1 = (RKey.name b).data ++ r2 := by
        have h12 := hr1.symm.trans hr2
        have h12' : (qualify sub n).data ++ '/' :: ((RKey.name a).data ++ r1) =
            (qualify sub n).data ++ '/' :: ((RKey.name b).data ++ r2) := h12
        have := List.append_cancel_left h12'
        exact List.cons.inj this |>.2
      have hnames : (RKey.name a).data = (RKey.name b).data :=
        seg_eq_of_append_eq _ _ r1 r2
          (noSlash_spec (hcs a ha).name_noSlash)
          (noSlash_spec (hcs b hb).name_noSlash) hc1 hc2 heq
      exact hne (String.ext hnames)

/-- C5: `_getKeys` over a hierarchical store: at a folder node it yields
exactly the concatenation, in store order, of the walks of its children
— i.e. `getKeys` of the child list under the path prefix qualified with
the folder's name; at a leaf node it yields exactly the leaf's own
qualified name; and on any well-formed fixture (separator-free names,
sibling names distinct — the store's unique-resolution invariant) the
yielded keys contain no duplicates. -/
theorem getKeys_folder_leaf_exact (t : RKey) (sub : Option String)
    (hwf : WF t) :
    (∀ n cs, t = .folder n cs →
      walkNode sub t = getKeys cs (some (qualify sub n)) ∧
      getKeys cs (some (qualify sub n)) =
        (cs.map (fun c => walkNode (some (qualify sub n)) c)).flatten) ∧
    (∀ n, t = .leaf n → walkNode sub t = [qualify sub n]) ∧
    (walkNode sub t).Nodup := by
  refine ⟨?_, ?_, walkNode_nodup hwf sub⟩
  · intro n cs ht
    subst ht
    exact ⟨walkNode_folder sub n cs, rfl⟩
  · intro n ht
    subst ht
    exact walkNode_leaf sub n

theorem demoTree_wf : WF demoTree := by
  refine WF.folder _ _ (by decide) (by decide) ?_
  intro c hc
  simp only [demoTree, List.mem_cons, List.not_mem_nil, or_false] at hc
  rcases hc with rfl | rfl | rfl
  · exact WF.leaf _ (by decide)
  · refine WF.folder _ _ (by decide) (by decide) ?_
    intro c hc
    simp only [List.mem_cons, List.not_mem_nil, or_false] at hc
    rcases hc with rfl
    exact WF.leaf _ (by decide)
  · exact WF.leaf _ (by decide)

/-- Witness for C5 on the nested fixture store, walked from the root. -/
theorem getKeys_folder_leaf_exact_witness :
    (∀ n cs, demoTree = .folder n cs →
      walkNode none demoTree = getKeys cs (some (qualify none n)) ∧
      getKeys cs (some (qualify none n)) =
        (cs.map (fun c => walkNode (some (qualify none n)) c)).flatten) ∧
    (∀ n, demoTree = .leaf n → walkNode none demoTree = [qualify none n]) ∧
    (walkNode none demoTree).Nodup :=
  getKeys_folder_leaf_exact demoTree none demoTree_wf
